import Mathlib

/-!
Verification of the BMO statement parser / ledger merger (`src/app.py`).

The development shallowly embeds the Python source:

* Strings are Lean `String`s; all primitive text operations (`strip`,
  `split`, substring test, `lower`) are re-implemented structurally over
  `List Char` so that every definition is executable by the kernel.
* The two regular expressions of the source
  (`^([A-Z][a-z]{2}\. \d{1,2})\s+([A-Z][a-z]{2}\. \d{1,2})$` and
  `(\d+\.\d{2})(\s+CR)?$`) are compiled to deterministic recognizers;
  determinism is justified in the doc comments of the recognizers.
* Python `float` amounts always carry exactly two fractional digits here,
  so they are modeled exactly as integer cents: the float `12.99` is the
  integer `1299`, and float negation is integer negation.
* The pandas data frames are lists of records; the persisted ledger file
  is passed explicitly as a list of rows (explicit state passing).
-/

/-- `\s` of the regexes resp. the whitespace stripped by Python `strip`
(ASCII fragment, which is all that statement text contains). -/
def isWsChar (c : Char) : Bool :=
  c = ' ' || c = '\t' || c = '\n' || c = '\r' || c = '\x0b' || c = '\x0c'

/-- `\d` — an ASCII decimal digit. -/
def isDigitCh (c : Char) : Bool :=
  '0' ≤ c && c ≤ '9'

/-- `[A-Z]`. -/
def isUpperCh (c : Char) : Bool :=
  'A' ≤ c && c ≤ 'Z'

/-- `[a-z]`. -/
def isLowerCh (c : Char) : Bool :=
  'a' ≤ c && c ≤ 'z'

/-- Numeric value of a digit character. -/
def digitVal (c : Char) : Nat :=
  c.toNat - '0'.toNat

/-- Value of a most-significant-first digit string, as `int(...)` /
`float(...)` read it. -/
def digitsVal (l : List Char) : Nat :=
  l.foldl (fun acc c => acc * 10 + digitVal c) 0

/-- Python `str.strip()`: drop leading and trailing whitespace. -/
def trimChars (l : List Char) : List Char :=
  (((l.dropWhile isWsChar).reverse).dropWhile isWsChar).reverse

/-- Python `str.strip()` on `String`. -/
def trimS (s : String) : String :=
  String.mk (trimChars s.data)

/-- Python `str.split('\n')`: `splitNl "".data = [""]`, separators are not
kept, a trailing newline yields a final empty piece. -/
def splitNl : List Char → List (List Char)
  | [] => [[]]
  | c :: cs =>
    if c = '\n' then
      [] :: splitNl cs
    else
      match splitNl cs with
      | [] => [[c]]
      | l :: rest => (c :: l) :: rest

/-- Does `pat` occur at the start of `hay`? (list prefix test). -/
def prefixEq : List Char → List Char → Bool
  | [], _ => true
  | _ :: _, [] => false
  | a :: as, b :: bs => a = b && prefixEq as bs

/-- Python `pat in hay` on strings: `pat` occurs contiguously in `hay`
(the empty pattern occurs in everything). -/
def occursIn (pat : List Char) : List Char → Bool
  | [] => prefixEq pat []
  | c :: rest => prefixEq pat (c :: rest) || occursIn pat rest

/-- Substring test on `String`s: Python `pat in hay`. -/
def containsS (hay pat : String) : Bool :=
  occursIn pat.data hay.data

/-- Python `" ".join(fragments)`. -/
def joinSp : List String → String
  | [] => ""
  | [s] => s
  | s :: rest => s ++ " " ++ joinSp rest

/-- Python `str.lower()` (ASCII fragment: all table keywords are ASCII). -/
def toLowerS (s : String) : String :=
  String.mk (s.data.map Char.toLower)

/-- One transaction row of the extracted data frame
(columns `Transaction Date, Posted Date, Description, Amount`);
`amount` is the signed amount in cents. -/
structure Txn where
  transDate : String
  postDate : String
  description : String
  amount : Int
deriving DecidableEq, Repr

/-- app.py:195-196 — the skip test of the scanning loop:
`not line or "TRANS" in line or "DATE" in line or "DESCRIPTION" in line or
"AMOUNT" in line or "Card number:" in line or "ETHAN QY WANG" in line`. -/
def skipLine (line : String) : Bool :=
  line.data.isEmpty || containsS line "TRANS" || containsS line "DATE" ||
    containsS line "DESCRIPTION" || containsS line "AMOUNT" ||
    containsS line "Card number:" || containsS line "ETHAN QY WANG"

/-- One month-day token `[A-Z][a-z]{2}\. \d{1,2}` of the date regex.
Returns the consumed characters and the rest.  The digit run taken is the
maximal one and must have length 1 or 2: if a third digit follows, the
regex engine fails both with two digits taken (next char is a digit, not
the required `\s`/end) and after backtracking to one digit, so the
compiled recognizer is deterministic. -/
def parseMD : List Char → Option (List Char × List Char)
  | u :: a :: b :: '.' :: ' ' :: rest =>
    if isUpperCh u && isLowerCh a && isLowerCh b then
      let ds := rest.takeWhile isDigitCh
      if ds.length = 1 || ds.length = 2 then
        some (u :: a :: b :: '.' :: ' ' :: ds, rest.dropWhile isDigitCh)
      else
        none
    else
      none
  | _ => none

/-- app.py:201 — `re.match(r'^([A-Z][a-z]{2}\. \d{1,2})\s+([A-Z][a-z]{2}\. \d{1,2})$', line)`,
returning the two captured date labels.  Between the tokens there must be
one or more whitespace characters, and the line must end right after the
second token. -/
def parseDatePair (line : String) : Option (String × String) :=
  match parseMD line.data with
  | none => none
  | some (tok1, rest) =>
    let ws := rest.takeWhile isWsChar
    if ws.isEmpty then
      none
    else
      match parseMD (rest.dropWhile isWsChar) with
      | none => none
      | some (tok2, rest2) =>
        if rest2.isEmpty then
          some (String.mk tok1, String.mk tok2)
        else
          none

/-- The `\d+\.\d{2}` core of the amount regex, read from the reversed
line: two digits, a dot, then a nonempty maximal digit run.  Returns the
amount in cents and the reversed remainder (the part of the line in front
of the match).  The run is maximal because `re.search` returns the
leftmost match position: if the character before a matching start were a
digit, one position earlier would match too. -/
def matchCore : List Char → Option (Nat × List Char)
  | d2 :: d1 :: '.' :: rest =>
    if isDigitCh d2 && isDigitCh d1 then
      let ds := rest.takeWhile isDigitCh
      if ds.isEmpty then
        none
      else
        some (digitsVal ds.reverse * 100 + digitVal d1 * 10 + digitVal d2,
              rest.dropWhile isDigitCh)
    else
      none
  | _ => none

/-- app.py:219-226 — `re.search(r'(\d+\.\d{2})(\s+CR)?$', current_line)`
plus the two uses of the match: the parsed amount in cents, whether the
credit marker was present, and the stripped text in front of the match
(`current_line[:current_line.rfind(group(0))].strip()`).  Because the
pattern is anchored at the end of the line, a match with the marker is
possible only for lines ending in `R` and a match without it only for
lines ending in a digit, so the two cases are disjoint and the recognizer
is deterministic. -/
def matchAmount (s : String) : Option (Nat × Bool × String) :=
  match s.data.reverse with
  | 'R' :: 'C' :: rest =>
    let ws := rest.takeWhile isWsChar
    if ws.isEmpty then
      none
    else
      match matchCore (rest.dropWhile isWsChar) with
      | some (cents, restRev) => some (cents, true, trimS (String.mk restRev.reverse))
      | none => none
  | rev =>
    match matchCore rev with
    | some (cents, restRev) => some (cents, false, trimS (String.mk restRev.reverse))
    | none => none

/-- The two states of the line parser: `scanning` is the outer loop of
app.py:191-241, `collecting` the inner loop at app.py:212-233 carrying
the captured date labels and the merchant fragments collected so far. -/
inductive PState where
  | scanning : PState
  | collecting : String → String → List String → PState
deriving DecidableEq, Repr

/-- One line of the parsing loop of `extract_bmo_transactions`
(app.py:191-241), as a step function: in `scanning`, skip-list lines are
discarded and a date-pair line opens a collecting cycle; in `collecting`,
a line with a trailing amount emits the transaction (credit marker `CR`
negating the amount, the text before the amount appended to the fragments
when nonempty) and any other nonempty line is appended as a fragment. -/
def stepLine : PState → String → PState × Option Txn
  | PState.scanning, line =>
    if skipLine line then
      (PState.scanning, none)
    else
      match parseDatePair line with
      | some (td, pd) => (PState.collecting td pd [], none)
      | none => (PState.scanning, none)
  | PState.collecting td pd frags, line =>
    let cl := trimS line
    if cl = "" then
      (PState.collecting td pd frags, none)
    else
      match matchAmount cl with
      | some (cents, isCR, bef) =>
        let frags2 := if bef = "" then frags else frags ++ [bef]
        (PState.scanning,
         some ⟨td, pd, joinSp frags2, if isCR then -(cents : Int) else (cents : Int)⟩)
      | none => (PState.collecting td pd (frags ++ [cl]), none)

/-- Run the parsing loop over the remaining lines, emitting transactions
in source order; a cycle still in `collecting` when the lines run out
emits nothing (app.py:236 guards on `amount is not None`). -/
def runLoop : PState → List String → List Txn
  | _, [] => []
  | st, l :: rest =>
    match stepLine st l with
    | (st2, none) => runLoop st2 rest
    | (st2, some t) => t :: runLoop st2 rest

/-- app.py:185-186 — split the section text into lines, strip each line
and drop the empty ones. -/
def sectionLines (text : String) : List String :=
  ((splitNl text.data).map trimChars).filterMap
    (fun l => if l.isEmpty then none else some (String.mk l))

/-- `extract_bmo_transactions` (app.py:169-241) after section isolation:
the transaction rows parsed from the section text (the later
categorization pass adds a separate column and does not change these
fields). -/
def extract_bmo_transactions (sectionText : String) : List Txn :=
  runLoop PState.scanning (sectionLines sectionText)

/-- app.py:96-140 — the fixed, ordered category table of
`fallback_categorization` (Python dicts iterate in insertion order). -/
def categories : List (String × List String) :=
  [("Food & Dining",
    ["mcdonald", "tim horton", "burger king", "kfc", "subway", "pizza",
     "starbucks", "coffee", "restaurant", "cafe", "diner", "wendy",
     "taco bell", "popeyes", "a&w", "dairy queen", "harveys",
     "resto", "bistro", "grill", "kitchen", "bar & grill",
     "golden fish", "arby", "nuri village", "yogurt", "poke"]),
   ("Transportation",
    ["uber", "lyft", "taxi", "gas", "petro", "shell", "esso", "parking",
     "transit", "go train", "ttc", "presto", "via rail"]),
   ("Shopping",
    ["amazon", "walmart", "target", "costco", "canadian tire", "home depot",
     "loblaws", "shoppers", "best buy", "future shop"]),
   ("Entertainment",
    ["netflix", "spotify", "movie", "cinema", "theatre", "concert",
     "waterloo star"]),
   ("Subscriptions",
    ["spotify", "netflix", "apple music", "subscription", "monthly fee",
     "gym membership", "planet fitness"]),
   ("Transfer",
    ["trsf", "transfer", "e-transfer", "interac", "payment to"]),
   ("ATM/Cash",
    ["atm", "cash withdrawal", "bank machine"]),
   ("Healthcare",
    ["pharmacy", "shoppers drug", "medical", "doctor", "hospital",
     "dental", "clinic", "health"]),
   ("Groceries",
    ["loblaws", "metro", "sobeys", "food basics", "no frills",
     "supermarket", "grocery", "fresh"]),
   ("Miscellaneous",
    ["hi yogurt"])]

/-- `fallback_categorization` (app.py:92-147): lowercase the description,
return the first category of the table one of whose keywords occurs in
it, and `Miscellaneous` when none matches. -/
def fallback_categorization (description : String) : String :=
  let dl := toLowerS description
  match categories.find? (fun ck => ck.2.any (fun kw => containsS dl kw)) with
  | some ck => ck.1
  | none => "Miscellaneous"

/-- One row of the persisted ledger file (columns
`Year, Month, Transaction Date, Posted Date, Description, Amount`).
`year = none` models a Year cell on which Python `int(...)` fails
(including the `None` tag written for a batch without a parsable month
label); `year = some n` an integer year cell. -/
structure Entry where
  year : Option Int
  month : String
  txn : Txn
deriving DecidableEq, Repr

/-- Python `first_date.split('.')[0]`: the characters before the first
period (the whole string if there is none). -/
def beforeDot : List Char → List Char
  | [] => []
  | c :: cs => if c = '.' then [] else c :: beforeDot cs

/-- `get_month_year_from_transactions` (app.py:249-264): month
abbreviation from the first transaction's date label, year fixed to 2025;
`(none, "")` for an empty batch or an empty month label (the Python
`None, None` return). -/
def get_month_year_from_transactions (df : List Txn) : Option Int × String :=
  match df with
  | [] => (none, "")
  | t :: _ =>
    let m := String.mk (beforeDot t.transDate.data)
    if m = "" then (none, "") else (some 2025, m)

/-- app.py:299-300 — the explicit month-order table. -/
def month_order : List String :=
  ["Jan", "Feb", "Mar", "Apr", "May", "Jun",
   "Jul", "Aug", "Sep", "Oct", "Nov", "Dec"]

/-- Python `list.index`, used only under an `in` guard. -/
def idxIn (x : String) : List String → Nat
  | [] => 0
  | y :: ys => if y = x then 0 else idxIn x ys + 1

/-- `sort_key` (app.py:302-308): `(int(Year), index of Month in
month_order if present else 99)`; if `int(Year)` raises, the fixed
sentinel `(9999, 99)`. -/
def sort_key (e : Entry) : Int × Nat :=
  match e.year with
  | none => (9999, 99)
  | some y => (y, if e.month ∈ month_order then idxIn e.month month_order else 99)

/-- Strict lexicographic comparison of sort keys, as Python compares the
`(year, month_idx)` tuples. -/
def keyLt (k1 k2 : Int × Nat) : Prop :=
  k1.1 < k2.1 ∨ (k1.1 = k2.1 ∧ k1.2 < k2.2)

instance (k1 k2 : Int × Nat) : Decidable (keyLt k1 k2) := by
  unfold keyLt
  exact inferInstance

/-- Non-strict lexicographic comparison of sort keys. -/
def keyLe (k1 k2 : Int × Nat) : Prop :=
  k1.1 < k2.1 ∨ (k1.1 = k2.1 ∧ k1.2 ≤ k2.2)

instance (k1 k2 : Int × Nat) : Decidable (keyLe k1 k2) := by
  unfold keyLe
  exact inferInstance

/-- Insert an entry into a key-sorted ledger, after every entry with a
strictly smaller key and before every entry with a greater-or-equal key
(so an entry inserted later never jumps in front of an equal-key entry
inserted earlier: the sort built on this is stable). -/
def insertE (e : Entry) : List Entry → List Entry
  | [] => [e]
  | x :: xs =>
    if keyLt (sort_key x) (sort_key e) then
      x :: insertE e xs
    else
      e :: x :: xs

/-- app.py:310-311 — `combined_df.sort_values('sort_key')` as a stable
insertion sort by `sort_key`.  This is an idealization: pandas'
`sort_values` uses numpy quicksort by default, which is documented as
not stable, so the real program fixes no particular order among rows
with equal sort keys.  Every theorem below that depends on the order of
equal-key rows beyond their membership therefore over-specifies the
program by exactly this stability assumption; theorems about which rows
appear, about per-key row sequences, and about key-sortedness are
independent of it. -/
def sortE : List Entry → List Entry
  | [] => []
  | e :: l => insertE e (sortE l)

/-- `append_to_log` (app.py:266-316) as a function of the batch and the
persisted ledger's rows (the file read at app.py:278 and written at
app.py:314 becomes explicit state).  The result is the new state of the
ledger file together with the reported `(year, month)` group; an empty
batch leaves the file untouched (the function returns at app.py:271
before reading it) and reports no group.  One corner is idealized: for
a batch whose first date label carries no month abbreviation the code
tags `year = month = None`, and its pandas filter `Year == None` matches
no prior row, while this model's filter matches like-tagged `(none, "")`
rows; the corner is unreachable for parser-produced batches, whose date
labels always match the date-pair pattern. -/
def append_to_log (new : List Txn) (prior : List Entry) :
    List Entry × Option (Option Int × String) :=
  match new with
  | [] => (prior, none)
  | _ :: _ =>
    let ym := get_month_year_from_transactions new
    let filtered :=
      prior.filter (fun e => !(decide (e.year = ym.1 ∧ e.month = ym.2)))
    let tagged := new.map (fun t => Entry.mk ym.1 ym.2 t)
    (sortE (filtered ++ tagged), some ym)

/-- An entry the spec calls valid: its year parses and its month label is
in the table. -/
def validKey (e : Entry) : Bool :=
  (match e.year with | some _ => true | none => false) &&
    decide (e.month ∈ month_order)

/-- Does every entry with an invalid key appear after every entry with a
valid key?  (No valid entry follows an invalid one.) -/
def invalidsAfterValids : List Entry → Bool
  | [] => true
  | e :: rest =>
    (validKey e || rest.all (fun x => !validKey x)) && invalidsAfterValids rest

/-- A well-formed transaction triple of the spec: a date-header line, its
merchant lines, its amount line, together with the values the parser
reads off them. -/
structure Block where
  dateLine : String
  merchants : List String
  amountLine : String
  td : String
  pd : String
  cents : Nat
  isCR : Bool
  bef : String
deriving DecidableEq, Repr

/-- The source lines of a block, in order. -/
def Block.lines (b : Block) : List String :=
  b.dateLine :: (b.merchants ++ [b.amountLine])

/-- Well-formedness: the date line is a date-pair line (such a line is
never on the skip-list, see `parseDatePair_not_skip`), each merchant
line is nonempty after trimming and carries no trailing amount, and the
amount line matches the amount pattern with the recorded cents, credit
marker and leading text. -/
def Block.WF (b : Block) : Prop :=
  parseDatePair b.dateLine = some (b.td, b.pd) ∧
  (∀ m ∈ b.merchants, trimS m ≠ "" ∧ matchAmount (trimS m) = none) ∧
  matchAmount (trimS b.amountLine) = some (b.cents, b.isCR, b.bef)

instance (b : Block) : Decidable b.WF := by
  unfold Block.WF
  exact inferInstance

/-- The transaction a well-formed block denotes. -/
def Block.txn (b : Block) : Txn :=
  ⟨b.td, b.pd,
   joinSp (b.merchants.map trimS ++ (if b.bef = "" then [] else [b.bef])),
   if b.isCR then -(b.cents : Int) else (b.cents : Int)⟩

/-- Lines the scanning state passes over: skip-list lines and lines that
are no date-pair line. -/
def junkOnly (ls : List String) : Prop :=
  ∀ l ∈ ls, skipLine l = true ∨ parseDatePair l = none

instance (ls : List String) : Decidable (junkOnly ls) := by
  unfold junkOnly
  exact inferInstance

/-- A chunk of section lines: ignored lines followed by one well-formed
block. -/
def chunkLines (c : List String × Block) : List String :=
  c.1 ++ c.2.lines

/-- The ledger is sorted when adjacent-in-order entries have
lexicographically nondecreasing sort keys. -/
def SortedK (l : List Entry) : Prop :=
  List.Pairwise (fun a b => keyLe (sort_key a) (sort_key b)) l

theorem prefixEq_iff (pat hay : List Char) :
    prefixEq pat hay = true ↔ ∃ t, hay = pat ++ t := by
  induction pat generalizing hay with
  | nil =>
    simp [prefixEq]
  | cons a as ih =>
    cases hay with
    | nil =>
      simp [prefixEq]
    | cons b bs =>
      simp only [prefixEq, Bool.and_eq_true, decide_eq_true_eq, ih, List.cons_append,
        List.cons.injEq]
      constructor
      · rintro ⟨rfl, t, rfl⟩
        exact ⟨t, rfl, rfl⟩
      · rintro ⟨t, rfl, rfl⟩
        exact ⟨rfl, t, rfl⟩

theorem occursIn_iff (pat hay : List Char) :
    occursIn pat hay = true ↔ ∃ l r, hay = l ++ pat ++ r := by
  induction hay with
  | nil =>
    simp only [occursIn, prefixEq_iff]
    constructor
    · rintro ⟨t, ht⟩
      exact ⟨[], t, ht⟩
    · rintro ⟨l, r, hlr⟩
      rcases List.append_eq_nil.mp (List.append_eq_nil.mp hlr.symm).1 with ⟨h1, h2⟩
      refine ⟨r, ?_⟩
      rw [h2]
      rw [(List.append_eq_nil.mp hlr.symm).2]
      simp
    | cons c cs ih =>
      simp only [occursIn, Bool.or_eq_true, prefixEq_iff, ih]
      constructor
      · rintro (⟨t, ht⟩ | ⟨l, r, hlr⟩)
        · exact ⟨[], t, by simpa using ht⟩
        · refine ⟨c :: l, r, ?_⟩
          rw [List.cons_append, List.cons_append, ← hlr]
      · rintro ⟨l, r, hlr⟩
        cases l with
        | nil =>
          left
          exact ⟨r, by simpa using hlr⟩
        | cons x xs =>
          right
          rw [List.cons_append, List.cons_append, List.cons.injEq] at hlr
          exact ⟨xs, r, by rw [hlr.2, List.append_assoc]⟩

theorem occursIn_trans {p q r : List Char} (h1 : occursIn p q = true)
    (h2 : occursIn q r = true) : occursIn p r = true := by
  rw [occursIn_iff] at h1 h2 ⊢
  obtain ⟨l1, r1, e1⟩ := h1
  obtain ⟨l2, r2, e2⟩ := h2
  refine ⟨l2 ++ l1, r1 ++ r2, ?_⟩
  rw [e2, e1]
  simp [List.append_assoc]

theorem digit_not_upper {c : Char} (h : isDigitCh c = true) : isUpperCh c = false := by
  rw [isDigitCh, Bool.and_eq_true, decide_eq_true_eq, decide_eq_true_eq] at h
  have hA : ¬('A' ≤ c) := fun hA => absurd (le_trans hA h.2) (by decide)
  simp [isUpperCh, hA]

theorem lower_not_upper {c : Char} (h : isLowerCh c = true) : isUpperCh c = false := by
  rw [isLowerCh, Bool.and_eq_true, decide_eq_true_eq, decide_eq_true_eq] at h
  have hZ : ¬(c ≤ 'Z') := fun hZ => absurd (le_trans h.1 hZ) (by decide)
  simp [isUpperCh, hZ]

theorem ws_not_upper {c : Char} (h : isWsChar c = true) : isUpperCh c = false := by
  rw [isWsChar] at h
  simp only [Bool.or_eq_true, decide_eq_true_eq] at h
  rcases h with ((((rfl | rfl) | rfl) | rfl) | rfl) | rfl <;> decide

theorem digit_ne_colon {c : Char} (h : isDigitCh c = true) : c ≠ ':' := by
  rw [isDigitCh, Bool.and_eq_true, decide_eq_true_eq, decide_eq_true_eq] at h
  intro hc
  rw [hc] at h
  exact absurd h.2 (by decide)

theorem lower_ne_colon {c : Char} (h : isLowerCh c = true) : c ≠ ':' := by
  rw [isLowerCh, Bool.and_eq_true, decide_eq_true_eq, decide_eq_true_eq] at h
  intro hc
  rw [hc] at h
  exact absurd h.1 (by decide)

theorem upper_ne_colon {c : Char} (h : isUpperCh c = true) : c ≠ ':' := by
  rw [isUpperCh, Bool.and_eq_true, decide_eq_true_eq, decide_eq_true_eq] at h
  intro hc
  rw [hc] at h
  exact absurd h.1 (by decide)

theorem ws_ne_colon {c : Char} (h : isWsChar c = true) : c ≠ ':' := by
  rw [isWsChar] at h
  simp only [Bool.or_eq_true, decide_eq_true_eq] at h
  rcases h with ((((rfl | rfl) | rfl) | rfl) | rfl) | rfl <;> decide

theorem occursIn_countP_le {p l : List Char} (q : Char → Bool)
    (h : occursIn p l = true) : p.countP q ≤ l.countP q := by
  rw [occursIn_iff] at h
  obtain ⟨x, y, rfl⟩ := h
  simp only [List.countP_append]
  omega

theorem occursIn_mem {p l : List Char} (h : occursIn p l = true) :
    ∀ c ∈ p, c ∈ l := by
  rw [occursIn_iff] at h
  obtain ⟨x, y, rfl⟩ := h
  intro c hc
  exact List.mem_append.mpr (Or.inl (List.mem_append.mpr (Or.inr hc)))

theorem parseMD_sound (cs tok rest : List Char) (h : parseMD cs = some (tok, rest)) :
    ∃ u a b ds, tok = u :: a :: b :: '.' :: ' ' :: ds ∧ cs = tok ++ rest ∧
      isUpperCh u = true ∧ isLowerCh a = true ∧ isLowerCh b = true ∧
      ds ≠ [] ∧ (∀ c ∈ ds, isDigitCh c = true) := by
  simp only [parseMD] at h
  split at h
  · rename_i u a b rest0
    split at h
    · rename_i hulb
      split at h
      · rename_i hlen
        rw [Option.some.injEq, Prod.mk.injEq] at h
        obtain ⟨htok, hrest⟩ := h
        rw [Bool.and_eq_true, Bool.and_eq_true] at hulb
        refine ⟨u, a, b, rest0.takeWhile isDigitCh, htok.symm, ?_,
          hulb.1.1, hulb.1.2, hulb.2, ?_, ?_⟩
        · rw [← htok, ← hrest]
          simp [List.takeWhile_append_dropWhile]
        · intro hcon
          rw [hcon] at hlen
          exact absurd hlen (by decide)
        · intro c hc
          exact List.mem_takeWhile_imp hc
      · exact Option.noConfusion h
    · exact Option.noConfusion h
  · exact Option.noConfusion h

theorem parseDatePair_sound (line : String) (td pd : String)
    (h : parseDatePair line = some (td, pd)) :
    ∃ tok1 ws tok2, line.data = tok1 ++ ws ++ tok2 ∧ ws ≠ [] ∧
      (∀ c ∈ ws, isWsChar c = true) ∧
      (∃ u a b ds, tok1 = u :: a :: b :: '.' :: ' ' :: ds ∧
        isUpperCh u = true ∧ isLowerCh a = true ∧ isLowerCh b = true ∧
        ds ≠ [] ∧ (∀ c ∈ ds, isDigitCh c = true)) ∧
      (∃ u a b ds, tok2 = u :: a :: b :: '.' :: ' ' :: ds ∧
        isUpperCh u = true ∧ isLowerCh a = true ∧ isLowerCh b = true ∧
        ds ≠ [] ∧ (∀ c ∈ ds, isDigitCh c = true)) := by
  simp only [parseDatePair] at h
  split at h
  · exact Option.noConfusion h
  · rename_i tok1 rest hmd1
    split at h
    · exact Option.noConfusion h
    · rename_i hws
      split at h
      · exact Option.noConfusion h
      · rename_i tok2 rest2 hmd2
        split at h
        · rename_i hrest2
          obtain ⟨u1, a1, b1, ds1, htok1, hcs1, hu1, ha1, hb1, hne1, hdig1⟩ :=
            parseMD_sound _ _ _ hmd1
          obtain ⟨u2, a2, b2, ds2, htok2, hcs2, hu2, ha2, hb2, hne2, hdig2⟩ :=
            parseMD_sound _ _ _ hmd2
          have hr2 : rest2 = [] := by
            cases rest2 with
            | nil => rfl
            | cons x xs => exact absurd hrest2 (by simp)
          refine ⟨tok1, rest.takeWhile isWsChar, tok2, ?_, ?_, ?_,
            ⟨u1, a1, b1, ds1, htok1, hu1, ha1, hb1, hne1, hdig1⟩,
            ⟨u2, a2, b2, ds2, htok2, hu2, ha2, hb2, hne2, hdig2⟩⟩
          · rw [hcs1]
            rw [hr2, List.append_nil] at hcs2
            rw [← hcs2]
            rw [List.append_assoc, List.takeWhile_append_dropWhile]
          · intro hcon
            rw [hcon] at hws
            exact absurd rfl hws
          · intro c hc
            exact List.mem_takeWhile_imp hc
        · exact Option.noConfusion h

theorem countP_upper_token (u a b : Char) (ds : List Char)
    (hu : isUpperCh u = true) (ha : isLowerCh a = true) (hb : isLowerCh b = true)
    (hdig : ∀ c ∈ ds, isDigitCh c = true) :
    (u :: a :: b :: '.' :: ' ' :: ds).countP isUpperCh = 1 := by
  have hds : ds.countP isUpperCh = 0 :=
    List.countP_eq_zero.mpr (fun c hc => by simp [digit_not_upper (hdig c hc)])
  have hsp : isUpperCh ' ' = false := by decide
  have hdot : isUpperCh '.' = false := by decide
  simp [List.countP_cons, hu, lower_not_upper ha, lower_not_upper hb, hds, hsp, hdot]

/-- A line matching the date-pair pattern is never on the skip-list: it
holds exactly two uppercase characters (each skip marker except the card
one holds more) and no colon (which the card marker requires). -/
theorem parseDatePair_not_skip (line : String) (td pd : String)
    (h : parseDatePair line = some (td, pd)) : skipLine line = false := by
  obtain ⟨tok1, ws, tok2, hdata, hwsne, hwsall,
    ⟨u1, a1, b1, ds1, htok1, hu1, ha1, hb1, hne1, hdig1⟩,
    ⟨u2, a2, b2, ds2, htok2, hu2, ha2, hb2, hne2, hdig2⟩⟩ :=
    parseDatePair_sound line td pd h
  have hcount : line.data.countP isUpperCh = 2 := by
    rw [hdata, htok1, htok2, List.countP_append, List.countP_append]
    rw [countP_upper_token u1 a1 b1 ds1 hu1 ha1 hb1 hdig1]
    rw [countP_upper_token u2 a2 b2 ds2 hu2 ha2 hb2 hdig2]
    have hws0 : ws.countP isUpperCh = 0 :=
      List.countP_eq_zero.mpr (fun c hc => by simp [ws_not_upper (hwsall c hc)])
    rw [hws0]
  have hcolon : ':' ∉ line.data := by
    rw [hdata]
    intro hc
    rcases List.mem_append.mp hc with hc1 | hc2
    · rcases List.mem_append.mp hc1 with hc3 | hc4
      · rw [htok1] at hc3
        rcases List.mem_cons.mp hc3 with he | hc5
        · exact upper_ne_colon hu1 he.symm
        rcases List.mem_cons.mp hc5 with he | hc6
        · exact lower_ne_colon ha1 he.symm
        rcases List.mem_cons.mp hc6 with he | hc7
        · exact lower_ne_colon hb1 he.symm
        rcases List.mem_cons.mp hc7 with he | hc8
        · exact absurd he (by decide)
        rcases List.mem_cons.mp hc8 with he | hc9
        · exact absurd he (by decide)
        · exact digit_ne_colon (hdig1 _ hc9) rfl
      · exact ws_ne_colon (hwsall _ hc4) rfl
    · rw [htok2] at hc2
      rcases List.mem_cons.mp hc2 with he | hc5
      · exact upper_ne_colon hu2 he.symm
      rcases List.mem_cons.mp hc5 with he | hc6
      · exact lower_ne_colon ha2 he.symm
      rcases List.mem_cons.mp hc6 with he | hc7
      · exact lower_ne_colon hb2 he.symm
      rcases List.mem_cons.mp hc7 with he | hc8
      · exact absurd he (by decide)
      rcases List.mem_cons.mp hc8 with he | hc9
      · exact absurd he (by decide)
      · exact digit_ne_colon (hdig2 _ hc9) rfl
  have hupper : ∀ pat : String, 2 < pat.data.countP isUpperCh →
      containsS line pat = false := by
    intro pat hgt
    cases hc : containsS line pat
    · rfl
    · exfalso
      have hle : pat.data.countP isUpperCh ≤ line.data.countP isUpperCh :=
        occursIn_countP_le isUpperCh hc
      rw [hcount] at hle
      omega
  have hempty : line.data.isEmpty = false := by
    rw [hdata, htok1]
    rfl
  have hcard : containsS line "Card number:" = false := by
    cases hc : containsS line "Card number:"
    · rfl
    · exact absurd (occursIn_mem hc ':' (by decide)) hcolon
  rw [skipLine, hempty, hcard]
  rw [hupper "TRANS" (by decide), hupper "DATE" (by decide),
    hupper "DESCRIPTION" (by decide), hupper "AMOUNT" (by decide),
    hupper "ETHAN QY WANG" (by decide)]
  rfl

theorem matchAmount_empty : matchAmount "" = none := rfl

theorem stepLine_scanning_skip (l : String) (h : skipLine l = true) :
    stepLine PState.scanning l = (PState.scanning, none) := by
  simp [stepLine, h]

theorem stepLine_scanning_date (l td pd : String) (hs : skipLine l = false)
    (hd : parseDatePair l = some (td, pd)) :
    stepLine PState.scanning l = (PState.collecting td pd [], none) := by
  simp [stepLine, hs, hd]

theorem stepLine_scanning_junk (l : String) (hd : parseDatePair l = none) :
    stepLine PState.scanning l = (PState.scanning, none) := by
  by_cases hs : skipLine l <;> simp [stepLine, hs, hd]

theorem stepLine_collecting_amount (td pd : String) (frags : List String) (l : String)
    (cents : Nat) (isCR : Bool) (bef : String)
    (h : matchAmount (trimS l) = some (cents, isCR, bef)) :
    stepLine (PState.collecting td pd frags) l =
      (PState.scanning,
       some ⟨td, pd, joinSp (if bef = "" then frags else frags ++ [bef]),
             if isCR then -(cents : Int) else (cents : Int)⟩) := by
  have hne : trimS l ≠ "" := by
    intro he
    rw [he, matchAmount_empty] at h
    exact Option.noConfusion h
  simp [stepLine, hne, h]

theorem stepLine_collecting_frag (td pd : String) (frags : List String) (l : String)
    (hne : trimS l ≠ "") (h : matchAmount (trimS l) = none) :
    stepLine (PState.collecting td pd frags) l =
      (PState.collecting td pd (frags ++ [trimS l]), none) := by
  simp [stepLine, hne, h]

theorem runLoop_junk (junk : List String) (rest : List String)
    (hj : junkOnly junk) :
    runLoop PState.scanning (junk ++ rest) = runLoop PState.scanning rest := by
  induction junk with
  | nil => rfl
  | cons l ls ih =>
    have hl := hj l (List.mem_cons_self l ls)
    have hls : junkOnly ls := fun x hx => hj x (List.mem_cons_of_mem l hx)
    rcases hl with hskip | hdate
    · simp only [List.cons_append, runLoop, stepLine_scanning_skip l hskip]
      exact ih hls
    · simp only [List.cons_append, runLoop, stepLine_scanning_junk l hdate]
      exact ih hls

theorem runLoop_collect (ms : List String) (td pd : String) (frags : List String)
    (al : String) (cents : Nat) (isCR : Bool) (bef : String) (rest : List String)
    (hms : ∀ m ∈ ms, trimS m ≠ "" ∧ matchAmount (trimS m) = none)
    (hal : matchAmount (trimS al) = some (cents, isCR, bef)) :
    runLoop (PState.collecting td pd frags) (ms ++ al :: rest) =
      ⟨td, pd, joinSp (frags ++ ms.map trimS ++ (if bef = "" then [] else [bef])),
       if isCR then -(cents : Int) else (cents : Int)⟩ :: runLoop PState.scanning rest := by
  induction ms generalizing frags with
  | nil =>
    simp only [List.nil_append, runLoop,
      stepLine_collecting_amount td pd frags al cents isCR bef hal]
    by_cases hb : bef = "" <;> simp [hb]
  | cons m ms ih =>
    have hm := hms m (List.mem_cons_self m ms)
    have hms2 : ∀ x ∈ ms, trimS x ≠ "" ∧ matchAmount (trimS x) = none :=
      fun x hx => hms x (List.mem_cons_of_mem m hx)
    simp only [List.cons_append, List.append_eq, runLoop,
      stepLine_collecting_frag td pd frags m hm.1 hm.2]
    rw [ih (frags ++ [trimS m]) hms2]
    simp [List.append_assoc]

theorem runLoop_collect_none (tl : List String) (td pd : String) (frags : List String)
    (h : ∀ l ∈ tl, matchAmount (trimS l) = none) :
    runLoop (PState.collecting td pd frags) tl = [] := by
  induction tl generalizing frags with
  | nil => rfl
  | cons l ls ih =>
    have hl := h l (List.mem_cons_self l ls)
    have hls : ∀ x ∈ ls, matchAmount (trimS x) = none :=
      fun x hx => h x (List.mem_cons_of_mem l hx)
    by_cases he : trimS l = ""
    · simp only [runLoop, stepLine, he]
      simp only [if_pos]
      exact ih frags hls
    · simp only [runLoop, stepLine_collecting_frag td pd frags l he hl]
      exact ih (frags ++ [trimS l]) hls

theorem runLoop_block (b : Block) (hb : b.WF) (rest : List String) :
    runLoop PState.scanning (b.lines ++ rest) = b.txn :: runLoop PState.scanning rest := by
  obtain ⟨h2, h3, h4⟩ := hb
  have h1 : skipLine b.dateLine = false := parseDatePair_not_skip _ _ _ h2
  have hshape : b.lines ++ rest = b.dateLine :: (b.merchants ++ b.amountLine :: rest) := by
    simp [Block.lines]
  rw [hshape]
  simp only [runLoop, stepLine_scanning_date b.dateLine b.td b.pd h1 h2]
  rw [runLoop_collect b.merchants b.td b.pd [] b.amountLine b.cents b.isCR b.bef rest h3 h4]
  simp [Block.txn]

theorem runLoop_chunks_append (chunks : List (List String × Block)) (rest : List String)
    (hwf : ∀ c ∈ chunks, junkOnly c.1 ∧ c.2.WF) :
    runLoop PState.scanning ((chunks.map chunkLines).flatten ++ rest) =
      chunks.map (fun c => c.2.txn) ++ runLoop PState.scanning rest := by
  induction chunks with
  | nil =>
    simp
  | cons c cs ih =>
    have hc := hwf c (List.mem_cons_self c cs)
    have hcs : ∀ x ∈ cs, junkOnly x.1 ∧ x.2.WF :=
      fun x hx => hwf x (List.mem_cons_of_mem c hx)
    simp only [List.map_cons, List.flatten_cons, chunkLines, List.append_assoc]
    rw [runLoop_junk c.1 _ hc.1]
    rw [runLoop_block c.2 hc.2 _]
    rw [ih hcs]
    rfl

theorem runLoop_junk_nil (junk : List String) (hj : junkOnly junk) :
    runLoop PState.scanning junk = [] := by
  have h := runLoop_junk junk [] hj
  rw [List.append_nil] at h
  rw [h]
  rfl

theorem keyLt_irrefl (k : Int × Nat) : ¬ keyLt k k := by
  unfold keyLt
  omega

theorem keyLt_asymm {k1 k2 : Int × Nat} (h : keyLt k1 k2) : ¬ keyLt k2 k1 := by
  unfold keyLt at h ⊢
  omega

theorem keyLt_trans {k1 k2 k3 : Int × Nat} (h1 : keyLt k1 k2) (h2 : keyLt k2 k3) :
    keyLt k1 k3 := by
  unfold keyLt at h1 h2 ⊢
  omega

theorem keyLe_of_lt {k1 k2 : Int × Nat} (h : keyLt k1 k2) : keyLe k1 k2 := by
  unfold keyLt at h
  unfold keyLe
  omega

theorem keyLe_of_not_lt {k1 k2 : Int × Nat} (h : ¬ keyLt k1 k2) : keyLe k2 k1 := by
  unfold keyLt at h
  unfold keyLe
  omega

theorem keyLe_trans {k1 k2 k3 : Int × Nat} (h1 : keyLe k1 k2) (h2 : keyLe k2 k3) :
    keyLe k1 k3 := by
  unfold keyLe at h1 h2 ⊢
  omega

theorem not_keyLt_of_le {k1 k2 : Int × Nat} (h : keyLe k1 k2) : ¬ keyLt k2 k1 := by
  unfold keyLe at h
  unfold keyLt
  omega

theorem mem_insertE {a : Entry} (e : Entry) (m : List Entry) :
    a ∈ insertE e m ↔ a = e ∨ a ∈ m := by
  induction m with
  | nil => simp [insertE]
  | cons x xs ih =>
    by_cases h : keyLt (sort_key x) (sort_key e)
    · simp only [insertE]
      rw [if_pos h]
      simp only [List.mem_cons, ih]
      tauto
    · simp only [insertE]
      rw [if_neg h]
      simp only [List.mem_cons]

theorem insertE_sorted (e : Entry) (m : List Entry) (hm : SortedK m) :
    SortedK (insertE e m) := by
  induction m with
  | nil =>
    simp [insertE, SortedK]
  | cons x xs ih =>
    rw [SortedK, List.pairwise_cons] at hm
    obtain ⟨hx, hxs⟩ := hm
    by_cases h : keyLt (sort_key x) (sort_key e)
    · simp only [insertE]
      rw [if_pos h, SortedK, List.pairwise_cons]
      refine ⟨?_, ih hxs⟩
      intro b hb
      rcases (mem_insertE e xs).mp hb with rfl | hbm
      · exact keyLe_of_lt h
      · exact hx b hbm
    · simp only [insertE]
      rw [if_neg h, SortedK, List.pairwise_cons]
      refine ⟨?_, List.pairwise_cons.mpr ⟨hx, hxs⟩⟩
      intro b hb
      rcases List.mem_cons.mp hb with rfl | hbm
      · exact keyLe_of_not_lt h
      · exact keyLe_trans (keyLe_of_not_lt h) (hx b hbm)

theorem sortE_sorted (l : List Entry) : SortedK (sortE l) := by
  induction l with
  | nil => simp [sortE, SortedK]
  | cons e l ih => exact insertE_sorted e (sortE l) ih

theorem insertE_perm (e : Entry) (m : List Entry) :
    List.Perm (insertE e m) (e :: m) := by
  induction m with
  | nil => exact List.Perm.refl [e]
  | cons x xs ih =>
    by_cases h : keyLt (sort_key x) (sort_key e)
    · simp only [insertE]
      rw [if_pos h]
      exact (ih.cons x).trans (List.Perm.swap e x xs)
    · simp only [insertE]
      rw [if_neg h]

theorem sortE_perm (l : List Entry) : List.Perm (sortE l) l := by
  induction l with
  | nil => exact List.Perm.refl []
  | cons e l ih => exact (insertE_perm e (sortE l)).trans (ih.cons e)

theorem filter_insertE_pos (p : Entry → Bool) (a : Entry) (m : List Entry)
    (hpa : p a = true)
    (hall : ∀ x ∈ m, p x = true → sort_key x = sort_key a) :
    (insertE a m).filter p = a :: m.filter p := by
  induction m with
  | nil => simp [insertE, hpa]
  | cons x xs ih =>
    by_cases h : keyLt (sort_key x) (sort_key a)
    · have hpx : p x = false := by
        cases hx : p x
        · rfl
        · rw [hall x (List.mem_cons_self x xs) hx] at h
          exact absurd h (keyLt_irrefl _)
      simp only [insertE]
      rw [if_pos h]
      simp only [List.filter_cons, hpx]
      rw [ih (fun y hy hpy => hall y (List.mem_cons_of_mem x hy) hpy)]
      simp
    · simp only [insertE]
      rw [if_neg h]
      simp [List.filter_cons, hpa]

theorem filter_insertE_neg (p : Entry → Bool) (a : Entry) (m : List Entry)
    (hpa : p a = false) :
    (insertE a m).filter p = m.filter p := by
  induction m with
  | nil => simp [insertE, hpa]
  | cons x xs ih =>
    by_cases h : keyLt (sort_key x) (sort_key a)
    · simp only [insertE]
      rw [if_pos h]
      simp only [List.filter_cons, ih]
    · simp only [insertE]
      rw [if_neg h]
      simp [List.filter_cons, hpa]

theorem filter_sortE_const (p : Entry → Bool)
    (hk : ∀ x y, p x = true → p y = true → sort_key x = sort_key y)
    (l : List Entry) :
    (sortE l).filter p = l.filter p := by
  induction l with
  | nil => rfl
  | cons a l ih =>
    show (insertE a (sortE l)).filter p = (a :: l).filter p
    cases hpa : p a
    · rw [filter_insertE_neg p a (sortE l) hpa, ih]
      simp [List.filter_cons, hpa]
    · rw [filter_insertE_pos p a (sortE l) hpa
        (fun x hx hpx => hk x a hpx hpa), ih]
      simp [List.filter_cons, hpa]

theorem append_to_log_eq (new : List Txn) (prior : List Entry)
    (y : Option Int) (m : String) (hne : new ≠ [])
    (hym : get_month_year_from_transactions new = (y, m)) :
    append_to_log new prior =
      (sortE ((prior.filter (fun e => !(decide (e.year = y ∧ e.month = m)))) ++
         new.map (fun t => Entry.mk y m t)),
       some (y, m)) := by
  cases new with
  | nil => exact absurd rfl hne
  | cons t ts =>
    simp only [append_to_log, hym]

theorem tagged_filter_pos (y : Option Int) (m : String) (batch : List Txn) :
    (batch.map (fun t => Entry.mk y m t)).filter
        (fun e => decide (e.year = y ∧ e.month = m)) =
      batch.map (fun t => Entry.mk y m t) := by
  apply List.filter_eq_self.mpr
  intro a ha
  rcases List.mem_map.mp ha with ⟨t, _, rfl⟩
  simp

theorem key_filter_const (y : Option Int) (m : String) :
    ∀ u v : Entry,
      (fun e => decide (e.year = y ∧ e.month = m)) u = true →
      (fun e => decide (e.year = y ∧ e.month = m)) v = true →
      sort_key u = sort_key v := by
  intro u v hu hv
  have hu2 : u.year = y ∧ u.month = m := of_decide_eq_true hu
  have hv2 : v.year = y ∧ v.month = m := of_decide_eq_true hv
  unfold sort_key
  rw [hu2.1, hu2.2, hv2.1, hv2.2]

/-- C5: merging a non-empty batch removes every prior entry carrying the
batch's group key and appends the batch tagged with that key: the merged
ledger's entries for the group key are exactly the batch's transactions
in order, and the whole merged ledger is a permutation of the filtered
prior ledger plus the tagged batch. -/
theorem merge_replaces_month_group (batch : List Txn) (prior : List Entry)
    (y : Option Int) (m : String) (hne : batch ≠ [])
    (hym : get_month_year_from_transactions batch = (y, m)) :
    ((append_to_log batch prior).1.filter
        (fun e => decide (e.year = y ∧ e.month = m))) =
      batch.map (fun t => Entry.mk y m t) ∧
    ((append_to_log batch prior).1.filter
        (fun e => decide (e.year = y ∧ e.month = m))).map Entry.txn = batch ∧
    List.Perm (append_to_log batch prior).1
      ((prior.filter (fun e => !(decide (e.year = y ∧ e.month = m)))) ++
        batch.map (fun t => Entry.mk y m t)) := by
  rw [append_to_log_eq batch prior y m hne hym]
  have h1 : (sortE ((prior.filter (fun e => !(decide (e.year = y ∧ e.month = m)))) ++
      batch.map (fun t => Entry.mk y m t))).filter
        (fun e => decide (e.year = y ∧ e.month = m)) =
      batch.map (fun t => Entry.mk y m t) := by
    rw [filter_sortE_const (fun e => decide (e.year = y ∧ e.month = m))
      (key_filter_const y m)]
    rw [List.filter_append]
    rw [tagged_filter_pos]
    have h0 : (prior.filter (fun e => !(decide (e.year = y ∧ e.month = m)))).filter
        (fun e => decide (e.year = y ∧ e.month = m)) = [] := by
      apply List.filter_eq_nil_iff.mpr
      intro a ha
      have h2 := List.of_mem_filter ha
      cases h3 : decide (a.year = y ∧ a.month = m)
      · simp [h3]
      · rw [h3] at h2
        simp at h2
    rw [h0, List.nil_append]
  refine ⟨h1, ?_, ?_⟩
  · rw [h1, List.map_map]
    have : (Entry.txn ∘ fun t => Entry.mk y m t) = id := by
      funext t
      rfl
    rw [this, List.map_id]
  · exact sortE_perm _

/-- C8: merging an empty batch is a no-op: the ledger file is left
exactly as it was and no group is reported. -/
theorem merge_empty_noop (prior : List Entry) :
    append_to_log [] prior = (prior, none) := rfl

theorem idxIn_month_lt (m : String) (hm : m ∈ month_order) :
    idxIn m month_order < 12 := by
  fin_cases hm <;> decide

/-- C7 counterexample: merging a (2025, Jan) batch into a prior ledger
holding one entry with a valid year 2024 but an unrecognized month label
puts that invalid-key entry (sort key (2024, 99)) in front of the valid
Jan-2025 entry (sort key (2025, 0)), so an entry whose month is not in
the table does not sort after all valid entries. -/
theorem merge_invalid_sentinel_cex :
    (append_to_log [⟨"Jan. 5", "Jan. 6", "PAYMENT", 100⟩]
        [⟨some 2024, "XXX", ⟨"Apr. 1", "Apr. 2", "STORE", 200⟩⟩]).1 =
      [⟨some 2024, "XXX", ⟨"Apr. 1", "Apr. 2", "STORE", 200⟩⟩,
       ⟨some 2025, "Jan", ⟨"Jan. 5", "Jan. 6", "PAYMENT", 100⟩⟩] ∧
    validKey ⟨some 2024, "XXX", ⟨"Apr. 1", "Apr. 2", "STORE", 200⟩⟩ = false ∧
    validKey ⟨some 2025, "Jan", ⟨"Jan. 5", "Jan. 6", "PAYMENT", 100⟩⟩ = true ∧
    invalidsAfterValids
      (append_to_log [⟨"Jan. 5", "Jan. 6", "PAYMENT", 100⟩]
        [⟨some 2024, "XXX", ⟨"Apr. 1", "Apr. 2", "STORE", 200⟩⟩]).1 = false := by
  refine ⟨?_, ?_, ?_, ?_⟩ <;> decide

/-- C7 (amended): after every merge of a non-empty batch the combined
ledger is sorted by year ascending then by the Jan=0..Dec=11 month index
(any entry preceding another has a lexicographically smaller-or-equal
sort key, so a (2024, Dec) entry always precedes a (2025, Jan) entry);
an entry with an unparseable year gets the fixed sentinel key (9999, 99),
and an entry with an unrecognized month label gets month index 99 and so
sorts after every recognized-month entry of the same year (not after all
valid entries of every year). -/
theorem merge_sorted_amended (batch : List Txn) (prior : List Entry)
    (hne : batch ≠ []) :
    List.Pairwise (fun a b => keyLe (sort_key a) (sort_key b))
      (append_to_log batch prior).1 ∧
    (∀ a b : Entry, List.Sublist [a, b] (append_to_log batch prior).1 →
       keyLe (sort_key a) (sort_key b)) ∧
    (∀ e1 e2 : Entry, e1.year = some 2024 → e1.month = "Dec" →
       e2.year = some 2025 → e2.month = "Jan" →
       keyLt (sort_key e1) (sort_key e2)) ∧
    (∀ a b : Entry, List.Sublist [a, b] (append_to_log batch prior).1 →
       a.year = some 2025 → a.month = "Jan" →
       ¬(b.year = some 2024 ∧ b.month = "Dec")) ∧
    (∀ e : Entry, e.year = none → sort_key e = (9999, 99)) ∧
    (∀ (yv : Int) (e1 e2 : Entry), e1.year = some yv → e2.year = some yv →
       e1.month ∈ month_order → ¬ e2.month ∈ month_order →
       keyLt (sort_key e1) (sort_key e2)) := by
  have hpair : List.Pairwise (fun a b => keyLe (sort_key a) (sort_key b))
      (append_to_log batch prior).1 := by
    rcases hym : get_month_year_from_transactions batch with ⟨y, m⟩
    rw [append_to_log_eq batch prior y m hne hym]
    exact sortE_sorted _
  have hsub : ∀ a b : Entry, List.Sublist [a, b] (append_to_log batch prior).1 →
      keyLe (sort_key a) (sort_key b) := by
    intro a b hab
    have h2 := List.Pairwise.sublist hab hpair
    rw [List.pairwise_cons] at h2
    exact h2.1 b (List.mem_cons_self b [])
  have hdecjan : ∀ e1 e2 : Entry, e1.year = some 2024 → e1.month = "Dec" →
      e2.year = some 2025 → e2.month = "Jan" →
      keyLt (sort_key e1) (sort_key e2) := by
    intro e1 e2 h1 h2 h3 h4
    unfold sort_key
    rw [h1, h2, h3, h4]
    decide
  refine ⟨hpair, hsub, hdecjan, ?_, ?_, ?_⟩
  · intro a b hab h1 h2 hcon
    have hle := hsub a b hab
    have hlt := hdecjan b a hcon.1 hcon.2 h1 h2
    exact not_keyLt_of_le hle hlt
  · intro e he
    unfold sort_key
    rw [he]
  · intro yv e1 e2 h1 h2 hm1 hm2
    have k1 : sort_key e1 = (yv, idxIn e1.month month_order) := by
      simp only [sort_key, h1, if_pos hm1]
    have k2 : sort_key e2 = (yv, 99) := by
      simp only [sort_key, h2, if_neg hm2]
    rw [k1, k2]
    have hidx := idxIn_month_lt e1.month hm1
    unfold keyLt
    right
    refine ⟨rfl, ?_⟩
    show idxIn e1.month month_order < 99
    omega

theorem matchCore_sound (rev : List Char) (cents : Nat) (restRev : List Char)
    (h : matchCore rev = some (cents, restRev)) :
    ∃ dsRev d1 d2, rev = d2 :: d1 :: '.' :: (dsRev ++ restRev) ∧
      dsRev ≠ [] ∧ (∀ c ∈ dsRev, isDigitCh c = true) ∧
      isDigitCh d1 = true ∧ isDigitCh d2 = true ∧
      cents = digitsVal dsRev.reverse * 100 + digitVal d1 * 10 + digitVal d2 := by
  simp only [matchCore] at h
  split at h
  · rename_i d2 d1 rest
    split at h
    · rename_i hdig
      split at h
      · exact Option.noConfusion h
      · rename_i hne
        rw [Option.some.injEq, Prod.mk.injEq] at h
        obtain ⟨hc, hr⟩ := h
        refine ⟨rest.takeWhile isDigitCh, d1, d2, ?_, ?_, ?_, ?_, ?_, ?_⟩
        · rw [← hr, List.takeWhile_append_dropWhile]
        · intro hcon
          rw [hcon] at hne
          exact hne rfl
        · intro c hc2
          exact List.mem_takeWhile_imp hc2
        · exact ((Bool.and_eq_true _ _).mp hdig).2
        · exact ((Bool.and_eq_true _ _).mp hdig).1
        · rw [← hc]
    · exact Option.noConfusion h
  · exact Option.noConfusion h

theorem matchAmount_sound (s : String) (cents : Nat) (isCR : Bool) (bef : String)
    (h : matchAmount s = some (cents, isCR, bef)) :
    ∃ pre ds d1 d2 mark,
      s.data = pre ++ ds ++ '.' :: d1 :: d2 :: mark ∧
      ds ≠ [] ∧ (∀ c ∈ ds, isDigitCh c = true) ∧
      isDigitCh d1 = true ∧ isDigitCh d2 = true ∧
      cents = digitsVal ds * 100 + digitVal d1 * 10 + digitVal d2 ∧
      bef = trimS (String.mk pre) ∧
      ((isCR = true ∧ ∃ ws, ws ≠ [] ∧ (∀ c ∈ ws, isWsChar c = true) ∧
          mark = ws ++ ['C', 'R']) ∨
       (isCR = false ∧ mark = [])) := by
  simp only [matchAmount] at h
  split at h
  · rename_i rest heq
    split at h
    · exact Option.noConfusion h
    · rename_i hws
      split at h
      · rename_i cents2 restRev hcore
        rw [Option.some.injEq, Prod.mk.injEq, Prod.mk.injEq] at h
        obtain ⟨hc, hcr, hbef⟩ := h
        obtain ⟨dsRev, d1, d2, hshape, hne, hdig, hd1, hd2, hcents⟩ :=
          matchCore_sound _ _ _ hcore
        refine ⟨restRev.reverse, dsRev.reverse, d1, d2,
          (rest.takeWhile isWsChar).reverse ++ ['C', 'R'], ?_, ?_, ?_, hd1, hd2, ?_, ?_, ?_⟩
        · have h1 : s.data = ('R' :: 'C' :: rest).reverse := by
            rw [← heq, List.reverse_reverse]
          have h2 : ('R' :: 'C' :: rest).reverse = rest.reverse ++ ['C', 'R'] := by
            simp
          have h3 : rest.reverse =
              (rest.dropWhile isWsChar).reverse ++ (rest.takeWhile isWsChar).reverse := by
            conv_lhs => rw [← @List.takeWhile_append_dropWhile _ isWsChar rest]
            rw [List.reverse_append]
          have h4 : (rest.dropWhile isWsChar).reverse =
              restRev.reverse ++ (dsRev.reverse ++ ['.', d1, d2]) := by
            rw [hshape]
            simp [List.append_assoc]
          rw [h1, h2, h3, h4]
          simp [List.append_assoc]
        · intro hcon
          rw [List.reverse_eq_nil_iff] at hcon
          exact hne hcon
        · intro c hc2
          exact hdig c (List.mem_reverse.mp hc2)
        · rw [← hc]
          exact hcents
        · exact hbef.symm
        · left
          refine ⟨hcr.symm, (rest.takeWhile isWsChar).reverse, ?_, ?_, rfl⟩
          · intro hcon
            rw [List.reverse_eq_nil_iff] at hcon
            rw [hcon] at hws
            exact hws rfl
          · intro c hc2
            exact List.mem_takeWhile_imp (List.mem_reverse.mp hc2)
      · exact Option.noConfusion h
  · split at h
    · rename_i cents2 restRev hcore
      rw [Option.some.injEq, Prod.mk.injEq, Prod.mk.injEq] at h
      obtain ⟨hc, hcr, hbef⟩ := h
      obtain ⟨dsRev, d1, d2, hshape, hne, hdig, hd1, hd2, hcents⟩ :=
        matchCore_sound _ _ _ hcore
      refine ⟨restRev.reverse, dsRev.reverse, d1, d2, [], ?_, ?_, ?_, hd1, hd2, ?_, ?_, ?_⟩
      · have h1 : s.data = (s.data.reverse).reverse := (List.reverse_reverse _).symm
        rw [h1, hshape]
        simp [List.append_assoc]
      · intro hcon
        rw [List.reverse_eq_nil_iff] at hcon
        exact hne hcon
      · intro c hc2
        exact hdig c (List.mem_reverse.mp hc2)
      · rw [← hc]
        exact hcents
      · exact hbef.symm
      · right
        exact ⟨hcr.symm, rfl⟩
    · exact Option.noConfusion h

/-- C1: a section text whose lines consist of ignored lines (skip-list
lines or non-date lines) interleaved with N well-formed (date-header
line, zero or more merchant lines, amount line) blocks parses to exactly
N transactions, one per block, in source order. -/
theorem parse_wellformed_section (text : String)
    (chunks : List (List String × Block)) (tailJunk : List String)
    (hsec : sectionLines text = (chunks.map chunkLines).flatten ++ tailJunk)
    (hwf : ∀ c ∈ chunks, junkOnly c.1 ∧ c.2.WF)
    (htail : junkOnly tailJunk) :
    extract_bmo_transactions text = chunks.map (fun c => c.2.txn) ∧
    (extract_bmo_transactions text).length = chunks.length := by
  have h : extract_bmo_transactions text = chunks.map (fun c => c.2.txn) := by
    unfold extract_bmo_transactions
    rw [hsec, runLoop_chunks_append chunks tailJunk hwf,
      runLoop_junk_nil tailJunk htail, List.append_nil]
  exact ⟨h, by rw [h, List.length_map]⟩

/-- C2: in the COLLECTING state a line matching the trailing amount
pattern emits a transaction whose amount (in cents) is the parsed
decimal negated exactly when the trailing credit marker CR is present
and the plain parsed decimal when it is absent; moreover every
successful amount match decomposes the line into leading text, a
nonempty digit run, a period, two digits and an optional
whitespace-then-CR marker, the parsed cents being the decimal's value. -/
theorem collecting_amount_sign_rule :
    (∀ (td pd : String) (frags : List String) (l : String) (cents : Nat)
        (isCR : Bool) (bef : String) (rest : List String),
      matchAmount (trimS l) = some (cents, isCR, bef) →
      runLoop (PState.collecting td pd frags) (l :: rest) =
        ⟨td, pd, joinSp (if bef = "" then frags else frags ++ [bef]),
         if isCR then -(cents : Int) else (cents : Int)⟩ ::
          runLoop PState.scanning rest) ∧
    (∀ (s : String) (cents : Nat) (isCR : Bool) (bef : String),
      matchAmount s = some (cents, isCR, bef) →
      ∃ pre ds d1 d2 mark,
        s.data = pre ++ ds ++ '.' :: d1 :: d2 :: mark ∧ ds ≠ [] ∧
        (∀ c ∈ ds, isDigitCh c = true) ∧
        isDigitCh d1 = true ∧ isDigitCh d2 = true ∧
        cents = digitsVal ds * 100 + digitVal d1 * 10 + digitVal d2 ∧
        bef = trimS (String.mk pre) ∧
        ((isCR = true ∧ ∃ ws, ws ≠ [] ∧ (∀ c ∈ ws, isWsChar c = true) ∧
            mark = ws ++ ['C', 'R']) ∨
         (isCR = false ∧ mark = []))) := by
  constructor
  · intro td pd frags l cents isCR bef rest h
    simp only [runLoop, stepLine_collecting_amount td pd frags l cents isCR bef h]
  · intro s cents isCR bef h
    exact matchAmount_sound s cents isCR bef h

/-- C3: one COLLECTING cycle over merchant lines followed by an amount
line emits one transaction whose description is the trimmed merchant
fragments joined with single spaces, with the trimmed text preceding the
amount on the amount line appended only when nonempty. -/
theorem collecting_cycle_description (b : Block) (hb : b.WF) (rest : List String) :
    runLoop PState.scanning (b.lines ++ rest) =
      b.txn :: runLoop PState.scanning rest ∧
    b.txn.description =
      joinSp (b.merchants.map trimS ++ (if b.bef = "" then [] else [b.bef])) :=
  ⟨runLoop_block b hb rest, rfl⟩

/-- C4: when the section ends while the parser is collecting (a
date-header line was seen and no later line matches the amount pattern
before the section ends), the in-progress transaction is silently
discarded: the parse returns exactly the transactions of the completed
cycles, and no error is possible (the parser is a total function). -/
theorem parse_truncated_discards (text : String)
    (chunks : List (List String × Block)) (midJunk : List String)
    (dl : String) (tl : List String) (td pd : String)
    (hsec : sectionLines text =
      (chunks.map chunkLines).flatten ++ (midJunk ++ dl :: tl))
    (hwf : ∀ c ∈ chunks, junkOnly c.1 ∧ c.2.WF)
    (hmid : junkOnly midJunk)
    (hdate : parseDatePair dl = some (td, pd))
    (htl : ∀ l ∈ tl, matchAmount (trimS l) = none) :
    extract_bmo_transactions text = chunks.map (fun c => c.2.txn) := by
  unfold extract_bmo_transactions
  rw [hsec, runLoop_chunks_append chunks _ hwf, runLoop_junk midJunk _ hmid]
  have hskip : skipLine dl = false := parseDatePair_not_skip _ _ _ hdate
  have h1 : runLoop PState.scanning (dl :: tl) = [] := by
    simp only [runLoop, stepLine_scanning_date dl td pd hskip hdate]
    exact runLoop_collect_none tl td pd [] htl
  rw [h1, List.append_nil]

theorem find?_append_none {α : Type} (p : α → Bool) (l1 l2 : List α)
    (h : ∀ x ∈ l1, p x = false) : (l1 ++ l2).find? p = l2.find? p := by
  induction l1 with
  | nil => rfl
  | cons a l ih =>
    have ha := h a (List.mem_cons_self a l)
    rw [List.cons_append, List.find?_cons_of_neg _ (by simp [ha])]
    exact ih (fun x hx => h x (List.mem_cons_of_mem a hx))

/-- C9: the deterministic categorization pass is a total function that
lowercases the description and scans the fixed ordered table: it returns
Miscellaneous when no keyword of any row occurs in the lowercased
description, and it returns the category of the first row one of whose
keywords occurs in it; in particular "UBER TRIP 12.34" is categorized
Transportation by this pass alone. -/
theorem fallback_first_match :
    fallback_categorization "UBER TRIP 12.34" = "Transportation" ∧
    (∀ d : String,
      (∀ p ∈ categories, ∀ kw ∈ p.2, containsS (toLowerS d) kw = false) →
      fallback_categorization d = "Miscellaneous") ∧
    (∀ (d : String) (pre : List (String × List String)) (cat : String)
        (kws : List String) (post : List (String × List String)),
      categories = pre ++ (cat, kws) :: post →
      (∀ p ∈ pre, ∀ kw ∈ p.2, containsS (toLowerS d) kw = false) →
      (∃ kw ∈ kws, containsS (toLowerS d) kw = true) →
      fallback_categorization d = cat) := by
  refine ⟨by decide, ?_, ?_⟩
  · intro d hd
    simp only [fallback_categorization]
    have hnone : categories.find?
        (fun ck => ck.2.any (fun kw => containsS (toLowerS d) kw)) = none := by
      rw [List.find?_eq_none]
      intro p hp hcon
      rw [List.any_eq_true] at hcon
      obtain ⟨kw, hkw, hc⟩ := hcon
      rw [hd p hp kw hkw] at hc
      exact Bool.noConfusion hc
    rw [hnone]
  · intro d pre cat kws post hsplit hpre hmatch
    simp only [fallback_categorization]
    rw [hsplit]
    rw [find?_append_none _ pre _ ?hfalse]
    case hfalse =>
      intro x hx
      cases hany : x.2.any (fun kw => containsS (toLowerS d) kw)
      · rfl
      · rw [List.any_eq_true] at hany
        obtain ⟨kw, hkw, hc⟩ := hany
        rw [hpre x hx kw hkw] at hc
        exact Bool.noConfusion hc
    rw [List.find?_cons_of_pos _ ?hpos]
    case hpos =>
      rw [List.any_eq_true]
      obtain ⟨kw, hkw, hc⟩ := hmatch
      exact ⟨kw, hkw, hc⟩

/-- C10: every description whose lowercase form contains "hi yogurt" is
categorized Food & Dining by the rule pass (its substring "yogurt" is a
keyword of the first table row), so the table's Miscellaneous row with
keyword "hi yogurt" is unreachable and the pass returns Miscellaneous
only via the no-match default: whenever the pass yields Miscellaneous,
no keyword of any row (that row included) occurs in the description. -/
theorem hi_yogurt_row_unreachable :
    (∀ d : String, containsS (toLowerS d) "hi yogurt" = true →
      fallback_categorization d = "Food & Dining") ∧
    (∀ d : String, fallback_categorization d = "Miscellaneous" →
      ∀ p ∈ categories, ∀ kw ∈ p.2, containsS (toLowerS d) kw = false) := by
  have hfood : ∀ d : String, containsS (toLowerS d) "yogurt" = true →
      fallback_categorization d = "Food & Dining" := by
    intro d hy
    obtain ⟨kws, rest, hc, hmem⟩ :
        ∃ kws rest, categories = ("Food & Dining", kws) :: rest ∧ "yogurt" ∈ kws :=
      ⟨_, _, rfl, by decide⟩
    simp only [fallback_categorization]
    rw [hc, List.find?_cons_of_pos _ ?hpos2]
    case hpos2 =>
      rw [List.any_eq_true]
      exact ⟨"yogurt", hmem, hy⟩
  constructor
  · intro d hd
    have hy : containsS (toLowerS d) "yogurt" = true :=
      occursIn_trans (by decide) hd
    exact hfood d hy
  · intro d hmisc p hp kw hkw
    cases hf : categories.find?
        (fun ck => ck.2.any (fun kw => containsS (toLowerS d) kw)) with
    | none =>
      have hall := List.find?_eq_none.mp hf p hp
      cases hc : containsS (toLowerS d) kw
      · rfl
      · exact absurd (List.any_eq_true.mpr ⟨kw, hkw, hc⟩) hall
    | some ck =>
      exfalso
      have hckv : fallback_categorization d = ck.1 := by
        simp only [fallback_categorization]
        rw [hf]
      rw [hmisc] at hckv
      have hckmem := List.mem_of_find?_eq_some hf
      have hpred := List.find?_some hf
      have hrow : ck = ("Miscellaneous", ["hi yogurt"]) := by
        simp only [categories, List.mem_cons, List.not_mem_nil, or_false] at hckmem
        rcases hckmem with rfl | rfl | rfl | rfl | rfl | rfl | rfl | rfl | rfl | rfl <;>
          first
          | rfl
          | exact absurd hckv.symm (by decide)
      have hhi : containsS (toLowerS d) "hi yogurt" = true := by
        rw [hrow] at hpred
        simpa using hpred
      have hy : containsS (toLowerS d) "yogurt" = true :=
        occursIn_trans (by decide) hhi
      have hfd := hfood d hy
      rw [hmisc] at hfd
      exact absurd hfd (by decide)

theorem parse_wellformed_section_witness :
    extract_bmo_transactions
        "TRANS DATE POSTED\nApr. 4 Apr. 7\nAMAZON.CA\nTORONTO ON 54.23\nApr. 8 Apr. 9\nPAYMENT RECEIVED 12.99 CR\nCard number: 1234" =
      [⟨"Apr. 4", "Apr. 7", "AMAZON.CA TORONTO ON", 5423⟩,
       ⟨"Apr. 8", "Apr. 9", "PAYMENT RECEIVED", -1299⟩] ∧
    (extract_bmo_transactions
        "TRANS DATE POSTED\nApr. 4 Apr. 7\nAMAZON.CA\nTORONTO ON 54.23\nApr. 8 Apr. 9\nPAYMENT RECEIVED 12.99 CR\nCard number: 1234").length = 2 := by
  have h := parse_wellformed_section
    "TRANS DATE POSTED\nApr. 4 Apr. 7\nAMAZON.CA\nTORONTO ON 54.23\nApr. 8 Apr. 9\nPAYMENT RECEIVED 12.99 CR\nCard number: 1234"
    [(["TRANS DATE POSTED"],
      ⟨"Apr. 4 Apr. 7", ["AMAZON.CA"], "TORONTO ON 54.23", "Apr. 4", "Apr. 7",
       5423, false, "TORONTO ON"⟩),
     ([],
      ⟨"Apr. 8 Apr. 9", [], "PAYMENT RECEIVED 12.99 CR", "Apr. 8", "Apr. 9",
       1299, true, "PAYMENT RECEIVED"⟩)]
    ["Card number: 1234"] (by decide) (by decide) (by decide)
  exact ⟨h.1.trans (by decide), h.2.trans (by decide)⟩

theorem collecting_amount_sign_rule_witness :
    runLoop (PState.collecting "Apr. 4" "Apr. 7" []) ["PAYMENT 12.99 CR"] =
      [⟨"Apr. 4", "Apr. 7", "PAYMENT", -1299⟩] ∧
    runLoop (PState.collecting "May. 1" "May. 2" []) ["INTEREST 4.50"] =
      [⟨"May. 1", "May. 2", "INTEREST", 450⟩] := by
  have h1 := collecting_amount_sign_rule.1 "Apr. 4" "Apr. 7" []
    "PAYMENT 12.99 CR" 1299 true "PAYMENT" [] (by decide)
  have h2 := collecting_amount_sign_rule.1 "May. 1" "May. 2" []
    "INTEREST 4.50" 450 false "INTEREST" [] (by decide)
  exact ⟨h1.trans (by decide), h2.trans (by decide)⟩

theorem collecting_cycle_description_witness :
    runLoop PState.scanning ["Apr. 4 Apr. 7", "AMAZON.CA", "TORONTO ON 54.23"] =
      [⟨"Apr. 4", "Apr. 7", "AMAZON.CA TORONTO ON", 5423⟩] := by
  have h := collecting_cycle_description
    ⟨"Apr. 4 Apr. 7", ["AMAZON.CA"], "TORONTO ON 54.23", "Apr. 4", "Apr. 7",
     5423, false, "TORONTO ON"⟩ (by decide) []
  exact h.1.trans (by decide)

theorem parse_truncated_discards_witness :
    extract_bmo_transactions
        "Apr. 4 Apr. 7\nSTORE A 10.00\nApr. 9 Apr. 9\nDANGLING MERCHANT" =
      [⟨"Apr. 4", "Apr. 7", "STORE A", 1000⟩] := by
  have h := parse_truncated_discards
    "Apr. 4 Apr. 7\nSTORE A 10.00\nApr. 9 Apr. 9\nDANGLING MERCHANT"
    [([], ⟨"Apr. 4 Apr. 7", [], "STORE A 10.00", "Apr. 4", "Apr. 7",
      1000, false, "STORE A"⟩)]
    [] "Apr. 9 Apr. 9" ["DANGLING MERCHANT"] "Apr. 9" "Apr. 9"
    (by decide) (by decide) (by decide) (by decide) (by decide)
  exact h.trans (by decide)

theorem merge_replaces_month_group_witness :
    ((append_to_log
        [⟨"Apr. 1", "Apr. 2", "A", 100⟩, ⟨"Apr. 3", "Apr. 4", "B", 200⟩,
         ⟨"Apr. 5", "Apr. 6", "C", 300⟩]
        [⟨some 2025, "Apr", ⟨"Apr. 9", "Apr. 9", "O1", 1⟩⟩,
         ⟨some 2025, "Apr", ⟨"Apr. 9", "Apr. 9", "O2", 2⟩⟩,
         ⟨some 2025, "Apr", ⟨"Apr. 9", "Apr. 9", "O3", 3⟩⟩,
         ⟨some 2025, "Apr", ⟨"Apr. 9", "Apr. 9", "O4", 4⟩⟩,
         ⟨some 2025, "Apr", ⟨"Apr. 9", "Apr. 9", "O5", 5⟩⟩]).1.filter
        (fun e => decide (e.year = some 2025 ∧ e.month = "Apr"))).map Entry.txn =
      [⟨"Apr. 1", "Apr. 2", "A", 100⟩, ⟨"Apr. 3", "Apr. 4", "B", 200⟩,
       ⟨"Apr. 5", "Apr. 6", "C", 300⟩] :=
  (merge_replaces_month_group _ _ (some 2025) "Apr" (by decide) (by decide)).2.1

theorem merge_sorted_amended_witness :
    List.Pairwise (fun a b => keyLe (sort_key a) (sort_key b))
      (append_to_log [⟨"Jan. 5", "Jan. 6", "A", 100⟩]
        [⟨some 2024, "Dec", ⟨"Dec. 1", "Dec. 2", "B", 200⟩⟩]).1 ∧
    keyLt (sort_key ⟨some 2024, "Dec", ⟨"Dec. 1", "Dec. 2", "B", 200⟩⟩)
      (sort_key ⟨some 2025, "Jan", ⟨"Jan. 5", "Jan. 6", "A", 100⟩⟩) := by
  have h := merge_sorted_amended [⟨"Jan. 5", "Jan. 6", "A", 100⟩]
    [⟨some 2024, "Dec", ⟨"Dec. 1", "Dec. 2", "B", 200⟩⟩] (by decide)
  exact ⟨h.1, h.2.2.1 _ _ rfl rfl rfl rfl⟩

theorem fallback_first_match_witness :
    fallback_categorization "zzz qqq" = "Miscellaneous" ∧
    fallback_categorization "FROZEN YOGURT" = "Food & Dining" := by
  constructor
  · exact fallback_first_match.2.1 "zzz qqq" (by decide)
  · exact fallback_first_match.2.2 "FROZEN YOGURT" [] "Food & Dining" _ _ rfl
      (by simp) (by decide)

theorem hi_yogurt_row_unreachable_witness :
    fallback_categorization "HI YOGURT TORONTO" = "Food & Dining" :=
  hi_yogurt_row_unreachable.1 "HI YOGURT TORONTO" (by decide)

-- sanity examples (categorizer, merger)
example : fallback_categorization "UBER TRIP 12.34" = "Transportation" := by decide
example : fallback_categorization "HI YOGURT" = "Food & Dining" := by decide
example : fallback_categorization "zzz qqq" = "Miscellaneous" := by decide
example :
    get_month_year_from_transactions [⟨"Apr. 4", "Apr. 7", "X", 100⟩] =
      (some 2025, "Apr") := by decide
example : sort_key ⟨some 2024, "Dec", ⟨"", "", "", 0⟩⟩ = (2024, 11) := by decide
example : sort_key ⟨some 2024, "XXX", ⟨"", "", "", 0⟩⟩ = (2024, 99) := by decide
example : sort_key ⟨none, "Jan", ⟨"", "", "", 0⟩⟩ = (9999, 99) := by decide
example :
    (append_to_log [⟨"Jan. 5", "Jan. 6", "A", 100⟩]
        [⟨some 2024, "XXX", ⟨"Apr. 1", "Apr. 2", "B", 200⟩⟩]).1 =
      [⟨some 2024, "XXX", ⟨"Apr. 1", "Apr. 2", "B", 200⟩⟩,
       ⟨some 2025, "Jan", ⟨"Jan. 5", "Jan. 6", "A", 100⟩⟩] := by decide

-- sanity examples (parser)
example : parseDatePair "Apr. 4 Apr. 7" = some ("Apr. 4", "Apr. 7") := by decide
example : parseDatePair "Apr. 4  Apr. 17" = some ("Apr. 4", "Apr. 17") := by decide
example : parseDatePair "Apr. 123 Apr. 7" = none := by decide
example : parseDatePair "Apr. 4 Apr. 7 x" = none := by decide
example : matchAmount "TORONTO ON 54.23" = some (5423, false, "TORONTO ON") := by decide
example : matchAmount "PAYMENT 12.99 CR" = some (1299, true, "PAYMENT") := by decide
example : matchAmount "12.34CR" = none := by decide
example : matchAmount "ABC 12.345" = none := by decide
example : matchAmount "1.23.45" = some (2345, false, "1.") := by decide
example :
    extract_bmo_transactions
      "TRANS DATE\nApr. 4 Apr. 7\nAMAZON.CA\nTORONTO ON 54.23\nApr. 8 Apr. 9\nPAYMENT RECEIVED 12.99 CR" =
    [⟨"Apr. 4", "Apr. 7", "AMAZON.CA TORONTO ON", 5423⟩,
     ⟨"Apr. 8", "Apr. 9", "PAYMENT RECEIVED", -1299⟩] := by decide
